import Mathlib

/-!
Verification development for the text-to-speech conversion pipeline
(`src/app.py`): the text segmenter `split_text`, the synthesis client
`text_to_speech`, and the conversion loop of `main_app`.

Texts are modelled as `List Char` (Python strings, indexed by character).
Whitespace is the ASCII whitespace set recognised by Python's `str.strip`
and the regex class `\s` (the rarely used extra Unicode whitespace
characters are not modelled; all inputs considered here are ASCII).
-/

namespace TTS

/-- ASCII whitespace, as matched by Python `str.strip` and regex `\s`. -/
def isPySpace (c : Char) : Bool :=
  c = ' ' || c = '\t' || c = '\n' || c = '\r' || c = '\x0b' || c = '\x0c'

/-- Sentence terminators of the lookbehind class `[.!?]` in
`re.split(r'(?<=[.!?])\s+', ...)`. -/
def isSentEnd (c : Char) : Bool :=
  c = '.' || c = '!' || c = '?'

/-- Python `str.strip()`: remove leading and trailing whitespace. -/
def pyStrip (s : List Char) : List Char :=
  ((s.dropWhile isPySpace).reverse.dropWhile isPySpace).reverse

/-- Whether a list starts with a whitespace character. -/
def headWs : List Char → Bool
  | [] => false
  | c :: _ => isPySpace c

/-- `re.split(r'(?<=[.!?])\s+', text)` as a character scan: a maximal
whitespace run immediately preceded by `.`, `!` or `?` separates two
pieces and is consumed.  `acc` holds the current piece reversed; the
`fuel` argument makes the recursion structural (each step consumes at
least one character of `rest`, so `fuel = rest.length` is enough and the
fuel-exhausted branch is unreachable). -/
def reSplitSent : Nat → List Char → List Char → List (List Char)
  | _, acc, [] => [acc.reverse]
  | 0, acc, rest => [acc.reverse ++ rest]
  | fuel + 1, acc, c :: cs =>
    if isSentEnd c && headWs cs then
      (acc.reverse ++ [c]) :: reSplitSent fuel [] (cs.dropWhile isPySpace)
    else
      reSplitSent fuel (c :: acc) cs

/-- The sentence pieces of a text, with adequate fuel. -/
def sentencesAux (acc : List Char) (s : List Char) : List (List Char) :=
  reSplitSent s.length acc s

/-- `paragraphs = re.split(r'(?<=[.!?])\s+', text.strip())` of `split_text`. -/
def sentences (s : List Char) : List (List Char) :=
  sentencesAux [] s

/-- The accumulation loop of `split_text`: `current` starts empty; a piece
`p` is appended (followed by one space) while the length check
`len(current) + len(p) + 1 <= max_length` passes, otherwise the stripped
`current` is flushed as a block and `current` restarts as `p + " "`.
After the loop a non-empty `current` is flushed as well. -/
def buildBlocks (maxLen : Nat) : List (List Char) → List Char → List (List Char)
  | [], current => if current = [] then [] else [pyStrip current]
  | p :: ps, current =>
    if current.length + p.length + 1 ≤ maxLen then
      buildBlocks maxLen ps (current ++ p ++ [' '])
    else
      pyStrip current :: buildBlocks maxLen ps (p ++ [' '])

/-- `split_text(text, max_length=4000)` from `src/app.py`. -/
def split_text (text : List Char) (maxLen : Nat := 4000) : List (List Char) :=
  buildBlocks maxLen (sentences (pyStrip text)) []

/-! ## Word sequences

The word sequence of a text: its maximal runs of non-whitespace
characters, in order.  Used to state that segmentation only renormalizes
whitespace.  The fuel pattern again makes the recursion structural. -/

/-- Negation of `isPySpace`, the run predicate for words. -/
def notWs (c : Char) : Bool := !isPySpace c

/-- Fuelled word scanner: skip whitespace, then one word is the maximal
`notWs` run. -/
def wordsF : Nat → List Char → List (List Char)
  | _, [] => []
  | 0, _ :: _ => []
  | fuel + 1, c :: cs =>
    if isPySpace c then wordsF fuel cs
    else (c :: cs.takeWhile notWs) :: wordsF fuel (cs.dropWhile notWs)

/-- The word sequence of a text. -/
def words (s : List Char) : List (List Char) := wordsF s.length s

/-- The word sequences of several texts, concatenated. -/
def wordsAll (L : List (List Char)) : List (List Char) := (L.map words).flatten

/-- Python's `" ".join(blocks)`: blocks joined by single spaces. -/
def joinSp : List (List Char) → List Char
  | [] => []
  | [b] => b
  | b :: bs => b ++ ' ' :: joinSp bs

/-- Each piece followed by one space (the shape `current` takes inside
the `split_text` loop). -/
def withSp : List (List Char) → List Char
  | [] => []
  | p :: ps => p ++ ' ' :: withSp ps

/-- Sum of the lengths of a list of texts. -/
def lenSum (L : List (List Char)) : Nat := (L.map List.length).sum

/-- No leading whitespace (stated on `head?`). -/
def headOk (l : List Char) : Prop :=
  ∀ c, l.head? = some c → isPySpace c = false

/-- No trailing whitespace (stated on `getLast?`). -/
def lastOk (l : List Char) : Prop :=
  ∀ c, l.getLast? = some c → isPySpace c = false

/-! ## Synthesis client `text_to_speech`

One network attempt either yields an HTTP response or raises
`requests.RequestException` (connection error / timeout).  A response is
modelled by its status code, its raw body bytes (`response.content`),
the shape its body presents to the message extraction
`response.json().get("error", {}).get("message", response.text)`, and
its body text (`response.text`).  The environment is a trace assigning
to each attempt index the result of that network attempt. -/

/-- The shape of a response body, as seen by the message extraction. -/
inductive BodyShape where
  /-- A JSON object whose `error` field is an object carrying a
  `message`: the extraction yields that message. -/
  | jsonMessage (msg : List Char)
  /-- A JSON object on which the `.get` defaults apply (no `error`
  field, or an object-valued `error` without `message`): the extraction
  yields `response.text`. -/
  | jsonNoMessage
  /-- Not valid JSON: `response.json()` raises `JSONDecodeError`, the
  `except` clause catches it, and the message falls back to
  `response.text`. -/
  | notJson
  /-- Valid JSON whose top level, or whose `error` value, is not an
  object: `.get` is called on a non-dict and raises `AttributeError`,
  which no handler in `text_to_speech` catches. -/
  | jsonNotObject
deriving DecidableEq

inductive Attempt where
  | response (status : Nat) (content : List Nat) (body : BodyShape)
      (rawText : List Char)
  | transportError
deriving DecidableEq

/-- Evaluation of
`response.json().get("error", {}).get("message", response.text)` under
the enclosing `except requests.exceptions.JSONDecodeError`: `some msg`
when it completes (possibly via the fallbacks to `response.text`),
`none` when it raises an uncaught `AttributeError`. -/
def extractMsg : BodyShape → List Char → Option (List Char)
  | .jsonMessage msg, _ => some msg
  | .jsonNoMessage, raw => some raw
  | .notJson, raw => some raw
  | .jsonNotObject, _ => none

/-- What one `text_to_speech` call hands its caller: a normal return
value (`response.content` or `None`), or an uncaught `AttributeError`
propagating out of the non-200 branch. -/
inductive TtsReturn where
  | value (v : Option (List Nat))
  | attrError
deriving DecidableEq

/-- Observable outcome of one `text_to_speech` call: what reaches the
caller (value returned or exception propagated), the number of network
attempts performed, the backoff delays slept between attempts, and the
error message shown via `st.error` on a non-200 response. -/
structure TtsRun where
  result : TtsReturn
  attempts : Nat
  sleeps : List Nat
  errorShown : Option (List Char)
deriving DecidableEq

/-- The non-200 branch of the loop body: extract the message and return
`None` after showing the message, or raise `AttributeError` during the
extraction (so nothing is shown and nothing is returned). -/
def rejectResult (body : BodyShape) (raw : List Char) : TtsRun :=
  match extractMsg body raw with
  | some msg => ⟨TtsReturn.value none, 1, [], some msg⟩
  | none => ⟨TtsReturn.attrError, 1, [], none⟩

/-- The `for attempt in range(retries + 1)` loop of `text_to_speech`,
with `remaining` attempts still allowed and the current attempt at index
`idx`.  A 200 response returns its content; any other response runs the
non-200 branch (`rejectResult`) without retrying; a transport error
retries after `time.sleep(2)` unless this was the last allowed attempt
(`attempt == retries`, i.e. `remaining = 1`). -/
def ttsLoop (trace : Nat → Attempt) : Nat → Nat → TtsRun
  | _, 0 => ⟨TtsReturn.value none, 0, [], none⟩
  | idx, r + 1 =>
    match trace idx with
    | .response status content body raw =>
      if status = 200 then ⟨TtsReturn.value (some content), 1, [], none⟩
      else rejectResult body raw
    | .transportError =>
      if r = 0 then ⟨TtsReturn.value none, 1, [], none⟩
      else
        let rest := ttsLoop trace (idx + 1) r
        ⟨rest.result, rest.attempts + 1, 2 :: rest.sleeps, rest.errorShown⟩

/-- `text_to_speech(text, voice_name, rate, retries=2)` from `src/app.py`,
abstracted over the network trace. -/
def text_to_speech (trace : Nat → Attempt) (retries : Nat := 2) : TtsRun :=
  ttsLoop trace 0 (retries + 1)

/-! ## Conversion loop of `main_app`

For each chunk the loop calls `text_to_speech` and, when the returned
`audio_bytes` is truthy, decodes it with `AudioSegment.from_file`
(success appends the decoded segment to `audio_segments` and increments
`success_count`; a decode exception is caught and reported).  The
environment supplies, per chunk and in chunk order, which of the three
cases occurred; a decoded audio segment is modelled as its list of
samples, so that pydub concatenation is list append and duration is
length. -/

inductive ChunkOutcome where
  | synthFailed
  | decodeFailed
  | decoded (segment : List Nat)
deriving DecidableEq

/-- Whether the chunk was counted in `success_count`. -/
def isOk : ChunkOutcome → Bool
  | .decoded _ => true
  | _ => false

/-- The decoded segment appended to `audio_segments`, if any. -/
def segOf : ChunkOutcome → Option (List Nat)
  | .decoded s => some s
  | _ => none

/-- The `for idx, part in enumerate(text_parts, ...)` loop: threads
`audio_segments` and `success_count` through the chunk outcomes. -/
def chunkLoop : List ChunkOutcome → List (List Nat) → Nat → List (List Nat) × Nat
  | [], segs, cnt => (segs, cnt)
  | o :: os, segs, cnt =>
    match o with
    | .decoded s => chunkLoop os (segs ++ [s]) (cnt + 1)
    | _ => chunkLoop os segs cnt

/-- Final report of one conversion run. -/
structure RunReport where
  total : Nat
  successCount : Nat
  perChunk : List Bool
  finalAudio : Option (List Nat)
deriving DecidableEq

/-- The conversion block of `main_app` (lines 228-287): the chunk loop
followed by `if success_count == len(text_parts) and audio_segments:`
which concatenates (`sum(audio_segments)`) and exports the combined
audio; otherwise no final audio is produced and only the per-chunk
results and the `success_count/len(text_parts)` metric are reported. -/
def main_convert (outcomes : List ChunkOutcome) : RunReport :=
  let r := chunkLoop outcomes [] 0
  { total := outcomes.length
    successCount := r.2
    perChunk := outcomes.map isOk
    finalAudio :=
      if r.2 = outcomes.length ∧ r.1 ≠ [] then some r.1.flatten else none }

/-! ## Sanity checks on concrete inputs -/

example : split_text ['a', 'b'] 4000 = [['a', 'b']] := by decide

example : split_text (List.replicate 20 'a') 5 = [[], List.replicate 20 'a'] := by decide

example : split_text ['H', 'i', '.', ' ', 'B', 'y', 'e', '.'] 8 =
    [['H', 'i', '.'], ['B', 'y', 'e', '.']] := by decide

example : split_text ['H', 'i', '.', ' ', ' ', 'B', 'y', 'e', '.'] 9 =
    [['H', 'i', '.', ' ', 'B', 'y', 'e', '.']] := by decide

example : split_text [' ', '\t'] 4000 = [[]] := by decide

example : words [' ', 'a', 'b', ' ', ' ', 'c'] = [['a', 'b'], ['c']] := by decide

example :
    text_to_speech (fun _ => Attempt.transportError) 2 =
      ⟨TtsReturn.value none, 3, [2, 2], none⟩ := by decide

example :
    text_to_speech (fun _ => Attempt.response 400 [] BodyShape.notJson ['b', 'a', 'd']) 2 =
      ⟨TtsReturn.value none, 1, [], some ['b', 'a', 'd']⟩ := by decide

example :
    text_to_speech (fun _ => Attempt.response 403 [] BodyShape.jsonNotObject ['x']) 2 =
      ⟨TtsReturn.attrError, 1, [], none⟩ := by decide

example :
    main_convert [ChunkOutcome.decoded [1, 2], ChunkOutcome.decoded [3]] =
      ⟨2, 2, [true, true], some [1, 2, 3]⟩ := by decide

example :
    main_convert [ChunkOutcome.decoded [1, 2], ChunkOutcome.synthFailed,
        ChunkOutcome.decoded [3]] =
      ⟨3, 2, [true, false, true], none⟩ := by decide

/-! ## Whitespace and strip lemmas -/

theorem sentEnd_not_ws {c : Char} (h : isSentEnd c = true) : isPySpace c = false := by
  simp only [isSentEnd, Bool.or_eq_true, decide_eq_true_eq] at h
  rcases h with (h | h) | h <;> subst h <;> rfl

theorem dropWhile_eq_self_of_headOk {l : List Char} (h : headOk l) :
    l.dropWhile isPySpace = l := by
  cases l with
  | nil => rfl
  | cons c cs => exact List.dropWhile_cons_of_neg (by simp [h c rfl])

theorem headOk_dropWhile (l : List Char) : headOk (l.dropWhile isPySpace) := by
  intro c hc
  have h := List.head?_dropWhile_not isPySpace l
  rw [hc] at h
  exact h

theorem getLast?_dropWhile {p : Char → Bool} {l : List Char}
    (h : l.dropWhile p ≠ []) : (l.dropWhile p).getLast? = l.getLast? := by
  obtain ⟨c, hc⟩ : ∃ c, (l.dropWhile p).getLast? = some c :=
    ⟨_, List.getLast?_eq_getLast _ h⟩
  rw [hc]
  conv_rhs => rw [← List.takeWhile_append_dropWhile p l]
  rw [List.getLast?_append, hc, Option.or_some]

theorem strip_length_le (s : List Char) : (pyStrip s).length ≤ s.length := by
  have h1 : ((s.dropWhile isPySpace).reverse.dropWhile isPySpace).length ≤
      (s.dropWhile isPySpace).reverse.length :=
    (List.dropWhile_sublist isPySpace).length_le
  have h2 : (s.dropWhile isPySpace).length ≤ s.length :=
    (List.dropWhile_sublist isPySpace).length_le
  simp only [pyStrip, List.length_reverse] at h1 ⊢
  omega

theorem headOk_pyStrip (s : List Char) : headOk (pyStrip s) := by
  intro c hc
  unfold pyStrip at hc
  rw [List.head?_reverse] at hc
  have hne : (s.dropWhile isPySpace).reverse.dropWhile isPySpace ≠ [] := by
    intro h0
    rw [h0] at hc
    simp at hc
  rw [getLast?_dropWhile hne, List.getLast?_reverse] at hc
  exact headOk_dropWhile s c hc

theorem lastOk_pyStrip (s : List Char) : lastOk (pyStrip s) := by
  intro c hc
  unfold pyStrip at hc
  rw [List.getLast?_reverse] at hc
  exact headOk_dropWhile (s.dropWhile isPySpace).reverse c hc

theorem strip_eq_self {l : List Char} (hh : headOk l) (hl : lastOk l) :
    pyStrip l = l := by
  unfold pyStrip
  rw [dropWhile_eq_self_of_headOk hh]
  have h : l.reverse.dropWhile isPySpace = l.reverse := by
    apply dropWhile_eq_self_of_headOk
    intro c hc
    rw [List.head?_reverse] at hc
    exact hl c hc
  rw [h, List.reverse_reverse]

theorem headOk_append {x b : List Char} (hx : headOk x) (hne : x ≠ []) :
    headOk (x ++ b) := by
  intro c hc
  rw [List.head?_append, List.head?_eq_head hne, Option.or_some] at hc
  exact hx c (by rw [List.head?_eq_head hne, hc])

theorem strip_append_space {x : List Char} (hh : headOk x) (hl : lastOk x) :
    pyStrip (x ++ [' ']) = x := by
  cases x with
  | nil => decide
  | cons c cs =>
    have hc : isPySpace c = false := hh c rfl
    unfold pyStrip
    rw [show ((c :: cs) ++ [' ']).dropWhile isPySpace = (c :: cs) ++ [' '] from
      List.dropWhile_cons_of_neg (by simp [hc])]
    rw [show ((c :: cs) ++ [' ']).reverse = ' ' :: (c :: cs).reverse by simp]
    rw [List.dropWhile_cons_of_pos (by decide)]
    have h4 : (c :: cs).reverse.dropWhile isPySpace = (c :: cs).reverse := by
      apply dropWhile_eq_self_of_headOk
      intro d hd
      rw [List.head?_reverse] at hd
      exact hl d hd
    rw [h4, List.reverse_reverse]

theorem strip_ne_nil {l : List Char} (hne : l ≠ []) (hh : headOk l) :
    pyStrip l ≠ [] := by
  unfold pyStrip
  rw [dropWhile_eq_self_of_headOk hh]
  simp only [ne_eq, List.reverse_eq_nil_iff]
  intro h0
  have hall := List.dropWhile_eq_nil_iff.mp h0
  cases l with
  | nil => exact hne rfl
  | cons c cs =>
    have h1 : isPySpace c = true := hall c (by simp)
    simp [hh c rfl] at h1

theorem dropWhile_ne_nil_of_lastOk {l : List Char} (hne : l ≠ []) (hl : lastOk l) :
    l.dropWhile isPySpace ≠ [] := by
  intro h0
  have h1 := List.dropWhile_eq_nil_iff.mp h0 _ (List.getLast_mem hne)
  simp [hl _ (List.getLast?_eq_getLast l hne)] at h1

/-! ## Word-sequence lemmas -/

theorem wordsF_nil (f : Nat) : wordsF f [] = [] := by cases f <;> rfl

theorem wordsF_cons (f : Nat) (c : Char) (cs : List Char) :
    wordsF (f + 1) (c :: cs) =
      if isPySpace c then wordsF f cs
      else (c :: cs.takeWhile notWs) :: wordsF f (cs.dropWhile notWs) := rfl

theorem wordsF_mono : ∀ (f g : Nat) (s : List Char), s.length ≤ f → s.length ≤ g →
    wordsF f s = wordsF g s := by
  intro f
  induction f with
  | zero =>
    intro g s hf hg
    have h0 : s = [] := List.length_eq_zero.mp (Nat.le_zero.mp hf)
    subst h0
    rw [wordsF_nil, wordsF_nil]
  | succ f ih =>
    intro g s hf hg
    cases s with
    | nil => rw [wordsF_nil, wordsF_nil]
    | cons c cs =>
      cases g with
      | zero => simp at hg
      | succ g =>
        have hf1 : cs.length ≤ f := by simp at hf; omega
        have hg1 : cs.length ≤ g := by simp at hg; omega
        rw [wordsF_cons, wordsF_cons]
        cases hc : isPySpace c with
        | true => simp only [hc, if_true, ite_true]; exact ih g cs hf1 hg1
        | false =>
          simp only [hc, Bool.false_eq_true, if_false, ite_false]
          rw [ih g (cs.dropWhile notWs)
            (le_trans (List.dropWhile_sublist notWs).length_le hf1)
            (le_trans (List.dropWhile_sublist notWs).length_le hg1)]

theorem words_eq_wordsF (f : Nat) (s : List Char) (h : s.length ≤ f) :
    wordsF f s = words s :=
  wordsF_mono f s.length s h (le_refl _)

theorem words_nil : words [] = [] := rfl

theorem words_cons_ws {c : Char} (cs : List Char) (h : isPySpace c = true) :
    words (c :: cs) = words cs := by
  show wordsF (c :: cs).length (c :: cs) = words cs
  rw [List.length_cons, wordsF_cons]
  simp only [h, if_true, ite_true]
  exact words_eq_wordsF cs.length cs (le_refl _)

theorem words_cons_not {c : Char} (cs : List Char) (h : isPySpace c = false) :
    words (c :: cs) =
      (c :: cs.takeWhile notWs) :: words (cs.dropWhile notWs) := by
  show wordsF (c :: cs).length (c :: cs) = _
  rw [List.length_cons, wordsF_cons]
  simp only [h, Bool.false_eq_true, if_false, ite_false]
  rw [words_eq_wordsF cs.length _ (List.dropWhile_sublist notWs).length_le]

theorem words_all_ws : ∀ (t : List Char), (∀ c ∈ t, isPySpace c = true) →
    words t = []
  | [], _ => words_nil
  | c :: cs, h => by
    rw [words_cons_ws cs (h c (by simp))]
    exact words_all_ws cs (fun d hd => h d (by simp [hd]))

theorem words_ws_lead : ∀ (t a : List Char), (∀ c ∈ t, isPySpace c = true) →
    words (t ++ a) = words a
  | [], a, _ => by rw [List.nil_append]
  | c :: cs, a, h => by
    rw [List.cons_append, words_cons_ws _ (h c (by simp))]
    exact words_ws_lead cs a (fun d hd => h d (by simp [hd]))

theorem words_append_ws_aux : ∀ (n : Nat) (a : List Char), a.length ≤ n →
    ∀ (w : Char) (b : List Char), isPySpace w = true →
    words (a ++ w :: b) = words a ++ words b := by
  intro n
  induction n with
  | zero =>
    intro a ha w b hw
    have h0 : a = [] := List.length_eq_zero.mp (Nat.le_zero.mp ha)
    subst h0
    rw [List.nil_append, words_nil, List.nil_append, words_cons_ws b hw]
  | succ n ih =>
    intro a ha w b hw
    cases a with
    | nil => rw [List.nil_append, words_nil, List.nil_append, words_cons_ws b hw]
    | cons c cs =>
      have hcs : cs.length ≤ n := by simp at ha; omega
      rw [List.cons_append]
      cases hc : isPySpace c with
      | true =>
        rw [words_cons_ws _ hc, words_cons_ws cs hc]
        exact ih cs hcs w b hw
      | false =>
        rw [words_cons_not _ hc, words_cons_not cs hc]
        by_cases hall : ∀ x ∈ cs, notWs x = true
        · rw [List.takeWhile_append_of_pos hall, List.dropWhile_append_of_pos hall]
          rw [show (w :: b).takeWhile notWs = [] from by
            simp [List.takeWhile_cons, notWs, hw]]
          rw [show (w :: b).dropWhile notWs = w :: b from
            List.dropWhile_cons_of_neg (by simp [notWs, hw])]
          rw [words_cons_ws b hw]
          rw [List.takeWhile_eq_self_iff.mpr hall, List.dropWhile_eq_nil_iff.mpr hall]
          rw [words_nil]
          simp
        · have ht : (cs ++ w :: b).takeWhile notWs = cs.takeWhile notWs := by
            rw [List.takeWhile_append]
            rw [if_neg fun hlen => hall (List.takeWhile_eq_self_iff.mp
              ((List.takeWhile_sublist notWs).eq_of_length hlen))]
          have hd : (cs ++ w :: b).dropWhile notWs = cs.dropWhile notWs ++ w :: b := by
            rw [List.dropWhile_append]
            rw [if_neg fun hemp => hall (List.dropWhile_eq_nil_iff.mp
              (List.isEmpty_iff.mp hemp))]
          rw [ht, hd]
          rw [ih (cs.dropWhile notWs)
            (le_trans (List.dropWhile_sublist notWs).length_le hcs) w b hw]
          simp

theorem words_append_ws {w : Char} (a b : List Char) (hw : isPySpace w = true) :
    words (a ++ w :: b) = words a ++ words b :=
  words_append_ws_aux a.length a (le_refl _) w b hw

theorem words_ws_suffix (a t : List Char) (ht : ∀ c ∈ t, isPySpace c = true) :
    words (a ++ t) = words a := by
  cases t with
  | nil => rw [List.append_nil]
  | cons w tl =>
    rw [words_append_ws a tl (ht w (by simp))]
    rw [words_all_ws tl (fun d hd => ht d (by simp [hd]))]
    rw [List.append_nil]

theorem words_dropWhile_ws (s : List Char) :
    words (s.dropWhile isPySpace) = words s := by
  conv_rhs => rw [← List.takeWhile_append_dropWhile isPySpace s]
  rw [words_ws_lead _ _ (fun c hc => List.mem_takeWhile_imp hc)]

theorem words_pyStrip (s : List Char) : words (pyStrip s) = words s := by
  rw [← words_dropWhile_ws s]
  have hdecomp :
      pyStrip s ++ ((s.dropWhile isPySpace).reverse.takeWhile isPySpace).reverse
        = s.dropWhile isPySpace := by
    unfold pyStrip
    rw [← List.reverse_append, List.takeWhile_append_dropWhile, List.reverse_reverse]
  rw [← hdecomp]
  refine (words_ws_suffix _ _ ?_).symm
  intro c hc
  rw [List.mem_reverse] at hc
  exact List.mem_takeWhile_imp hc

/-! ## Sentence-splitter lemmas -/

theorem reSplitSent_nil (f : Nat) (acc : List Char) :
    reSplitSent f acc [] = [acc.reverse] := by cases f <;> rfl

theorem reSplitSent_cons (f : Nat) (acc : List Char) (c : Char) (cs : List Char) :
    reSplitSent (f + 1) acc (c :: cs) =
      if isSentEnd c && headWs cs then
        (acc.reverse ++ [c]) :: reSplitSent f [] (cs.dropWhile isPySpace)
      else reSplitSent f (c :: acc) cs := rfl

theorem reSplitSent_mono : ∀ (f g : Nat) (acc s : List Char), s.length ≤ f →
    s.length ≤ g → reSplitSent f acc s = reSplitSent g acc s := by
  intro f
  induction f with
  | zero =>
    intro g acc s hf hg
    have h0 : s = [] := List.length_eq_zero.mp (Nat.le_zero.mp hf)
    subst h0
    rw [reSplitSent_nil, reSplitSent_nil]
  | succ f ih =>
    intro g acc s hf hg
    cases s with
    | nil => rw [reSplitSent_nil, reSplitSent_nil]
    | cons c cs =>
      cases g with
      | zero => simp at hg
      | succ g =>
        have hf1 : cs.length ≤ f := by simp at hf; omega
        have hg1 : cs.length ≤ g := by simp at hg; omega
        rw [reSplitSent_cons, reSplitSent_cons]
        cases hsp : (isSentEnd c && headWs cs) with
        | true =>
          simp only [hsp, if_true, ite_true]
          rw [ih g [] (cs.dropWhile isPySpace)
            (le_trans (List.dropWhile_sublist isPySpace).length_le hf1)
            (le_trans (List.dropWhile_sublist isPySpace).length_le hg1)]
        | false =>
          simp only [hsp, Bool.false_eq_true, if_false, ite_false]
          exact ih g (c :: acc) cs hf1 hg1

theorem sentencesAux_nil (acc : List Char) : sentencesAux acc [] = [acc.reverse] :=
  reSplitSent_nil 0 acc

theorem sentencesAux_split {c : Char} {cs : List Char} (acc : List Char)
    (h : (isSentEnd c && headWs cs) = true) :
    sentencesAux acc (c :: cs) =
      (acc.reverse ++ [c]) :: sentencesAux [] (cs.dropWhile isPySpace) := by
  show reSplitSent (c :: cs).length acc (c :: cs) = _
  rw [List.length_cons, reSplitSent_cons]
  simp only [h, if_true, ite_true]
  rw [reSplitSent_mono cs.length (cs.dropWhile isPySpace).length [] _
    (List.dropWhile_sublist isPySpace).length_le (le_refl _)]
  rfl

theorem sentencesAux_push {c : Char} {cs : List Char} (acc : List Char)
    (h : (isSentEnd c && headWs cs) = false) :
    sentencesAux acc (c :: cs) = sentencesAux (c :: acc) cs := by
  show reSplitSent (c :: cs).length acc (c :: cs) = _
  rw [List.length_cons, reSplitSent_cons]
  simp only [h, Bool.false_eq_true, if_false, ite_false]
  rfl

theorem sentencesAux_ne_nil : ∀ (s acc : List Char), sentencesAux acc s ≠ []
  | [], acc => by rw [sentencesAux_nil]; simp
  | c :: cs, acc => by
    cases hsp : (isSentEnd c && headWs cs) with
    | true => rw [sentencesAux_split acc hsp]; simp
    | false => rw [sentencesAux_push acc hsp]; exact sentencesAux_ne_nil cs (c :: acc)

theorem wordsAll_cons (x : List Char) (L : List (List Char)) :
    wordsAll (x :: L) = words x ++ wordsAll L := by
  simp [wordsAll]

theorem lenSum_cons (x : List Char) (L : List (List Char)) :
    lenSum (x :: L) = x.length + lenSum L := by
  simp [lenSum]

theorem sentencesAux_words : ∀ (n : Nat) (s : List Char), s.length ≤ n →
    ∀ (acc : List Char),
    wordsAll (sentencesAux acc s) = words (acc.reverse ++ s) := by
  intro n
  induction n with
  | zero =>
    intro s hs acc
    have h0 : s = [] := List.length_eq_zero.mp (Nat.le_zero.mp hs)
    subst h0
    rw [sentencesAux_nil, wordsAll_cons, List.append_nil]
    simp [wordsAll]
  | succ n ih =>
    intro s hs acc
    cases s with
    | nil =>
      rw [sentencesAux_nil, wordsAll_cons, List.append_nil]
      simp [wordsAll]
    | cons c cs =>
      have hcs : cs.length ≤ n := by simp at hs; omega
      cases hsp : (isSentEnd c && headWs cs) with
      | false =>
        rw [sentencesAux_push acc hsp, ih cs hcs (c :: acc)]
        congr 1
        simp
      | true =>
        cases cs with
        | nil => simp [headWs] at hsp
        | cons d ds =>
          have hwd : isPySpace d = true := by
            have h1 := (Bool.and_eq_true _ _).mp hsp
            simpa [headWs] using h1.2
          rw [sentencesAux_split acc hsp, wordsAll_cons]
          rw [ih ((d :: ds).dropWhile isPySpace)
            (le_trans (List.dropWhile_sublist isPySpace).length_le hcs) []]
          rw [List.reverse_nil, List.nil_append]
          rw [List.dropWhile_cons_of_pos hwd]
          have hdw : (ds.dropWhile isPySpace).length ≤ ds.length :=
            (List.dropWhile_sublist isPySpace).length_le
          rw [show ds.dropWhile isPySpace =
            List.dropWhile isPySpace ds from rfl]
          rw [words_dropWhile_ws ds]
          rw [show acc.reverse ++ c :: d :: ds = (acc.reverse ++ [c]) ++ d :: ds by simp]
          rw [words_append_ws _ ds hwd]

theorem sentencesAux_len : ∀ (n : Nat) (s : List Char), s.length ≤ n →
    ∀ (acc : List Char),
    lenSum (sentencesAux acc s) + (sentencesAux acc s).length ≤
      acc.length + s.length + 1 := by
  intro n
  induction n with
  | zero =>
    intro s hs acc
    have h0 : s = [] := List.length_eq_zero.mp (Nat.le_zero.mp hs)
    subst h0
    simp [sentencesAux_nil, lenSum]
  | succ n ih =>
    intro s hs acc
    cases s with
    | nil => simp [sentencesAux_nil, lenSum]
    | cons c cs =>
      have hcs : cs.length ≤ n := by simp at hs; omega
      cases hsp : (isSentEnd c && headWs cs) with
      | false =>
        rw [sentencesAux_push acc hsp]
        have h1 := ih cs hcs (c :: acc)
        simp only [List.length_cons] at h1 ⊢
        omega
      | true =>
        cases cs with
        | nil => simp [headWs] at hsp
        | cons d ds =>
          have hwd : isPySpace d = true := by
            have h0 := (Bool.and_eq_true _ _).mp hsp
            simpa [headWs] using h0.2
          rw [sentencesAux_split acc hsp, lenSum_cons]
          rw [List.dropWhile_cons_of_pos hwd]
          have h1 := ih (ds.dropWhile isPySpace)
            (le_trans (List.dropWhile_sublist isPySpace).length_le
              (by simp at hcs; omega)) []
          have h2 : (ds.dropWhile isPySpace).length ≤ ds.length :=
            (List.dropWhile_sublist isPySpace).length_le
          simp only [List.length_cons, List.length_nil, List.length_append,
            List.length_reverse] at h1 h2 ⊢
          omega

theorem lastOk_of_append_cons {acc : List Char} {c : Char} {cs : List Char}
    (hcs : cs ≠ []) (hl : lastOk (acc ++ c :: cs)) : lastOk cs := by
  intro e he
  apply hl e
  obtain ⟨x, xs, rfl⟩ := List.exists_cons_of_ne_nil hcs
  rw [List.getLast?_append, List.getLast?_cons_cons, he, Option.or_some]

theorem sentencesAux_quality : ∀ (n : Nat) (s : List Char), s.length ≤ n →
    ∀ (acc : List Char), acc.reverse ++ s ≠ [] →
    headOk (acc.reverse ++ s) → lastOk (acc.reverse ++ s) →
    ∀ p ∈ sentencesAux acc s, p ≠ [] ∧ pyStrip p = p := by
  intro n
  induction n with
  | zero =>
    intro s hs acc hne hh hl p hp
    have h0 : s = [] := List.length_eq_zero.mp (Nat.le_zero.mp hs)
    subst h0
    rw [sentencesAux_nil] at hp
    rw [List.append_nil] at hne hh hl
    rw [List.mem_singleton] at hp
    subst hp
    exact ⟨hne, strip_eq_self hh hl⟩
  | succ n ih =>
    intro s hs acc hne hh hl p hp
    cases s with
    | nil =>
      rw [sentencesAux_nil] at hp
      rw [List.append_nil] at hne hh hl
      rw [List.mem_singleton] at hp
      subst hp
      exact ⟨hne, strip_eq_self hh hl⟩
    | cons c cs =>
      have hcs : cs.length ≤ n := by simp at hs; omega
      cases hsp : (isSentEnd c && headWs cs) with
      | false =>
        rw [sentencesAux_push acc hsp] at hp
        have hassoc : (c :: acc).reverse ++ cs = acc.reverse ++ c :: cs := by simp
        refine ih cs hcs (c :: acc) ?_ ?_ ?_ p hp
        · rw [hassoc]; simp
        · rw [hassoc]; exact hh
        · rw [hassoc]; exact hl
      | true =>
        have hse : isSentEnd c = true := ((Bool.and_eq_true _ _).mp hsp).1
        cases cs with
        | nil => simp [headWs] at hsp
        | cons d ds =>
          have hwd : isPySpace d = true := by
            have h1 := (Bool.and_eq_true _ _).mp hsp
            simpa [headWs] using h1.2
          have hlast : lastOk (d :: ds) :=
            lastOk_of_append_cons (by simp) hl
          rw [sentencesAux_split acc hsp] at hp
          rw [List.mem_cons] at hp
          rcases hp with hp | hp
          · subst hp
            constructor
            · simp
            · apply strip_eq_self
              · intro e he
                apply hh e
                rw [List.head?_append] at he ⊢
                simpa using he
              · intro e he
                rw [List.getLast?_append] at he
                simp only [List.getLast?_singleton, Option.or_some, Option.some.injEq] at he
                subst he
                exact sentEnd_not_ws hse
          · have hdnn : (d :: ds).dropWhile isPySpace ≠ [] :=
              dropWhile_ne_nil_of_lastOk (by simp) hlast
            refine ih ((d :: ds).dropWhile isPySpace)
              (le_trans (List.dropWhile_sublist isPySpace).length_le hcs) [] ?_ ?_ ?_ p hp
            · simpa using hdnn
            · rw [List.reverse_nil, List.nil_append]
              exact headOk_dropWhile (d :: ds)
            · rw [List.reverse_nil, List.nil_append]
              intro e he
              rw [getLast?_dropWhile hdnn] at he
              exact hlast e he

/-! ## Block-accumulation lemmas -/

theorem buildBlocks_nil (L : Nat) (current : List Char) :
    buildBlocks L [] current = if current = [] then [] else [pyStrip current] := rfl

theorem buildBlocks_cons (L : Nat) (p : List Char) (ps : List (List Char))
    (current : List Char) :
    buildBlocks L (p :: ps) current =
      if current.length + p.length + 1 ≤ L then
        buildBlocks L ps (current ++ p ++ [' '])
      else pyStrip current :: buildBlocks L ps (p ++ [' ']) := rfl

theorem buildBlocks_ne_nil (L : Nat) : ∀ (ps : List (List Char)) (current : List Char),
    current ≠ [] → buildBlocks L ps current ≠ []
  | [], current, h => by rw [buildBlocks_nil, if_neg h]; simp
  | p :: ps, current, _ => by
    rw [buildBlocks_cons]
    by_cases hfit : current.length + p.length + 1 ≤ L
    · rw [if_pos hfit]; exact buildBlocks_ne_nil L ps _ (by simp)
    · rw [if_neg hfit]; simp

theorem emit_bound {L : Nat} {P : List (List Char)} {current : List Char}
    (hc : current = [] ∨ current.length ≤ L ∨
      ∃ p, p ∈ P ∧ p ≠ [] ∧ pyStrip p = p ∧ current = p ++ [' ']) :
    (pyStrip current).length ≤ L ∨
      (L < (pyStrip current).length ∧ pyStrip current ∈ P) := by
  rcases hc with rfl | hlen | ⟨p, hmem, hpn, hstrip, rfl⟩
  · left
    rw [show pyStrip [] = [] from rfl]
    simp
  · left
    exact le_trans (strip_length_le current) hlen
  · have hh : headOk p := by rw [← hstrip]; exact headOk_pyStrip p
    have hl : lastOk p := by rw [← hstrip]; exact lastOk_pyStrip p
    rw [strip_append_space hh hl]
    rcases le_or_lt p.length L with h | h
    · exact Or.inl h
    · exact Or.inr ⟨h, hmem⟩

theorem buildBlocks_bound (L : Nat) (P : List (List Char)) :
    ∀ (ps : List (List Char)) (current : List Char),
      (∀ p ∈ ps, p ∈ P ∧ p ≠ [] ∧ pyStrip p = p) →
      (current = [] ∨ current.length ≤ L ∨
        ∃ p, p ∈ P ∧ p ≠ [] ∧ pyStrip p = p ∧ current = p ++ [' ']) →
      ∀ b ∈ buildBlocks L ps current,
        b.length ≤ L ∨ (L < b.length ∧ b ∈ P)
  | [], current, _, hc, b, hb => by
    rw [buildBlocks_nil] at hb
    by_cases h0 : current = []
    · rw [if_pos h0] at hb; simp at hb
    · rw [if_neg h0, List.mem_singleton] at hb
      subst hb
      exact emit_bound hc
  | p :: ps, current, hps, hc, b, hb => by
    rw [buildBlocks_cons] at hb
    by_cases hfit : current.length + p.length + 1 ≤ L
    · rw [if_pos hfit] at hb
      refine buildBlocks_bound L P ps _ (fun q hq => hps q (by simp [hq])) ?_ b hb
      right; left
      simp only [List.length_append, List.length_cons, List.length_nil]
      omega
    · rw [if_neg hfit, List.mem_cons] at hb
      rcases hb with rfl | hb
      · exact emit_bound hc
      · refine buildBlocks_bound L P ps _ (fun q hq => hps q (by simp [hq])) ?_ b hb
        right; right
        obtain ⟨h1, h2, h3⟩ := hps p (by simp)
        exact ⟨p, h1, h2, h3, rfl⟩

theorem buildBlocks_all_ne_nil (L : Nat) :
    ∀ (ps : List (List Char)) (current : List Char),
      (∀ p ∈ ps, p ≠ [] ∧ headOk p) →
      current ≠ [] → headOk current →
      ∀ b ∈ buildBlocks L ps current, b ≠ []
  | [], current, _, hcn, hch, b, hb => by
    rw [buildBlocks_nil, if_neg hcn, List.mem_singleton] at hb
    subst hb
    exact strip_ne_nil hcn hch
  | p :: ps, current, hps, hcn, hch, b, hb => by
    rw [buildBlocks_cons] at hb
    by_cases hfit : current.length + p.length + 1 ≤ L
    · rw [if_pos hfit] at hb
      refine buildBlocks_all_ne_nil L ps _ (fun q hq => hps q (by simp [hq]))
        (by simp) ?_ b hb
      exact headOk_append (headOk_append hch hcn) (by simp [hcn])
    · rw [if_neg hfit, List.mem_cons] at hb
      rcases hb with rfl | hb
      · exact strip_ne_nil hcn hch
      · obtain ⟨hpn, hph⟩ := hps p (by simp)
        exact buildBlocks_all_ne_nil L ps _ (fun q hq => hps q (by simp [hq]))
          (by simp) (headOk_append hph hpn) b hb

theorem buildBlocks_tail_ne_nil (L : Nat) :
    ∀ (ps : List (List Char)) (current : List Char),
      (∀ p ∈ ps, p ≠ [] ∧ headOk p) →
      (current = [] ∨ headOk current) →
      ∀ b ∈ (buildBlocks L ps current).tail, b ≠ []
  | [], current, _, _, b, hb => by
    rw [buildBlocks_nil] at hb
    by_cases h0 : current = []
    · rw [if_pos h0] at hb; simp at hb
    · rw [if_neg h0] at hb; simp at hb
  | p :: ps, current, hps, hc, b, hb => by
    rw [buildBlocks_cons] at hb
    by_cases hfit : current.length + p.length + 1 ≤ L
    · rw [if_pos hfit] at hb
      have hch : headOk (current ++ p ++ [' ']) := by
        by_cases hcn : current = []
        · subst hcn
          simp only [List.nil_append]
          obtain ⟨hpn, hph⟩ := hps p (by simp)
          exact headOk_append hph hpn
        · rcases hc with rfl | hch
          · exact absurd rfl hcn
          · exact headOk_append (headOk_append hch hcn) (by simp [hcn])
      exact buildBlocks_all_ne_nil L ps _ (fun q hq => hps q (by simp [hq]))
        (by simp) hch b (List.mem_of_mem_tail hb)
    · rw [if_neg hfit, List.tail_cons] at hb
      obtain ⟨hpn, hph⟩ := hps p (by simp)
      exact buildBlocks_all_ne_nil L ps _ (fun q hq => hps q (by simp [hq]))
        (by simp) (headOk_append hph hpn) b hb

theorem space_all_ws : ∀ c ∈ [' '], isPySpace c = true := by
  intro c hc
  rw [List.mem_singleton] at hc
  subst hc
  decide

theorem buildBlocks_words (L : Nat) :
    ∀ (ps : List (List Char)) (current : List Char),
      (current = [] ∨ ∃ d, current = d ++ [' ']) →
      words (joinSp (buildBlocks L ps current)) = words current ++ wordsAll ps
  | [], current, _ => by
    rw [buildBlocks_nil]
    by_cases h0 : current = []
    · rw [if_pos h0]
      subst h0
      simp [joinSp, wordsAll, words_nil]
    · rw [if_neg h0]
      rw [show joinSp [pyStrip current] = pyStrip current from rfl]
      rw [words_pyStrip]
      simp [wordsAll]
  | p :: ps, current, hc => by
    rw [buildBlocks_cons]
    by_cases hfit : current.length + p.length + 1 ≤ L
    · rw [if_pos hfit]
      rw [buildBlocks_words L ps (current ++ p ++ [' '])
        (Or.inr ⟨current ++ p, rfl⟩)]
      rw [wordsAll_cons]
      have hw : words (current ++ p ++ [' ']) = words current ++ words p := by
        rw [words_ws_suffix (current ++ p) [' '] space_all_ws]
        rcases hc with rfl | ⟨d, rfl⟩
        · rw [List.nil_append, words_nil, List.nil_append]
        · rw [show (d ++ [' ']) ++ p = d ++ ' ' :: p by simp]
          rw [words_append_ws d p (by decide)]
          rw [words_ws_suffix d [' '] space_all_ws]
      rw [hw, List.append_assoc]
    · rw [if_neg hfit]
      have hrne : buildBlocks L ps (p ++ [' ']) ≠ [] :=
        buildBlocks_ne_nil L ps _ (by simp)
      obtain ⟨r, rs, hr⟩ := List.exists_cons_of_ne_nil hrne
      rw [hr]
      rw [show joinSp (pyStrip current :: r :: rs) =
        pyStrip current ++ ' ' :: joinSp (r :: rs) from rfl]
      rw [words_append_ws _ _ (by decide)]
      rw [← hr]
      rw [buildBlocks_words L ps (p ++ [' ']) (Or.inr ⟨p, rfl⟩)]
      rw [words_pyStrip]
      rw [words_ws_suffix p [' '] space_all_ws]
      rw [wordsAll_cons]

theorem buildBlocks_allfit (L : Nat) :
    ∀ (ps : List (List Char)) (current : List Char),
      (current ≠ [] ∨ ps ≠ []) →
      current.length + lenSum ps + ps.length ≤ L →
      buildBlocks L ps current = [pyStrip (current ++ withSp ps)]
  | [], current, hne, _ => by
    rcases hne with hne | hne
    · rw [buildBlocks_nil, if_neg hne]
      rw [show withSp [] = [] from rfl, List.append_nil]
    · exact absurd rfl hne
  | p :: ps, current, _, hb => by
    have hfit : current.length + p.length + 1 ≤ L := by
      rw [lenSum_cons] at hb
      simp only [List.length_cons] at hb
      omega
    have hb2 : (current ++ p ++ [' ']).length + lenSum ps + ps.length ≤ L := by
      rw [lenSum_cons] at hb
      simp only [List.length_append, List.length_cons, List.length_nil] at hb ⊢
      omega
    rw [buildBlocks_cons, if_pos hfit,
      buildBlocks_allfit L ps _ (Or.inl (by simp)) hb2]
    rw [show withSp (p :: ps) = p ++ ' ' :: withSp ps from rfl]
    congr 1
    simp

theorem withSp_eq_joinSp : ∀ (ps : List (List Char)), ps ≠ [] →
    withSp ps = joinSp ps ++ [' ']
  | [], h => absurd rfl h
  | [_], _ => rfl
  | p :: q :: ps, _ => by
    rw [show withSp (p :: q :: ps) = p ++ ' ' :: withSp (q :: ps) from rfl]
    rw [withSp_eq_joinSp (q :: ps) (by simp)]
    rw [show joinSp (p :: q :: ps) = p ++ ' ' :: joinSp (q :: ps) from rfl]
    simp

theorem joinSp_ne_nil : ∀ (ps : List (List Char)), ps ≠ [] →
    (∀ p ∈ ps, p ≠ []) → joinSp ps ≠ []
  | [], h, _ => absurd rfl h
  | [p], _, hall => by
    rw [show joinSp [p] = p from rfl]
    exact hall p (by simp)
  | p :: q :: ps, _, _ => by
    rw [show joinSp (p :: q :: ps) = p ++ ' ' :: joinSp (q :: ps) from rfl]
    simp

theorem joinSp_headOk : ∀ (ps : List (List Char)),
    (∀ p ∈ ps, p ≠ [] ∧ headOk p) → headOk (joinSp ps)
  | [], _ => by
    intro c hc
    simp [joinSp] at hc
  | [p], hall => by
    rw [show joinSp [p] = p from rfl]
    exact (hall p (by simp)).2
  | p :: q :: ps, hall => by
    rw [show joinSp (p :: q :: ps) = p ++ ' ' :: joinSp (q :: ps) from rfl]
    obtain ⟨hpn, hph⟩ := hall p (by simp)
    exact headOk_append hph hpn

theorem joinSp_lastOk : ∀ (ps : List (List Char)),
    (∀ p ∈ ps, p ≠ [] ∧ lastOk p) → lastOk (joinSp ps)
  | [], _ => by
    intro c hc
    simp [joinSp] at hc
  | [p], hall => by
    rw [show joinSp [p] = p from rfl]
    exact (hall p (by simp)).2
  | p :: q :: ps, hall => by
    rw [show joinSp (p :: q :: ps) = p ++ ' ' :: joinSp (q :: ps) from rfl]
    intro c hc
    have hjn : joinSp (q :: ps) ≠ [] :=
      joinSp_ne_nil (q :: ps) (by simp) (fun r hr => (hall r (by simp [hr])).1)
    have hrec := joinSp_lastOk (q :: ps) (fun r hr => hall r (by simp [hr]))
    apply hrec c
    rw [List.getLast?_append] at hc
    obtain ⟨x, xs, hx⟩ := List.exists_cons_of_ne_nil hjn
    rw [hx] at hc ⊢
    rw [List.getLast?_cons_cons] at hc
    obtain ⟨e, he⟩ : ∃ e, (x :: xs).getLast? = some e :=
      ⟨_, List.getLast?_eq_getLast _ (by simp)⟩
    rw [he] at hc ⊢
    rw [Option.or_some] at hc
    exact hc

theorem split_text_trim_nil {text : List Char} {L : Nat} (hL : 0 < L)
    (h : pyStrip text = []) : split_text text L = [[]] := by
  unfold split_text
  rw [h]
  rw [show sentences [] = [[]] from rfl]
  rw [buildBlocks_cons]
  rw [if_pos (by simp only [List.length_nil]; omega)]
  rw [show ([] : List Char) ++ [] ++ [' '] = [' '] from rfl]
  rw [buildBlocks_nil, if_neg (by simp)]
  rw [show pyStrip [' '] = [] from by decide]

/-! ## Synthesis-client lemmas -/

theorem ttsLoop_zero (trace : Nat → Attempt) (idx : Nat) :
    ttsLoop trace idx 0 = ⟨TtsReturn.value none, 0, [], none⟩ := rfl

theorem rejectResult_attempts (body : BodyShape) (raw : List Char) :
    (rejectResult body raw).attempts = 1 := by
  unfold rejectResult
  cases extractMsg body raw <;> rfl

theorem ttsLoop_response {trace : Nat → Attempt} {idx status : Nat}
    {content : List Nat} {body : BodyShape} {raw : List Char} (r : Nat)
    (h : trace idx = .response status content body raw) :
    ttsLoop trace idx (r + 1) =
      if status = 200 then ⟨TtsReturn.value (some content), 1, [], none⟩
      else rejectResult body raw := by
  simp only [ttsLoop]
  rw [h]

theorem ttsLoop_transport {trace : Nat → Attempt} {idx : Nat} (r : Nat)
    (h : trace idx = .transportError) :
    ttsLoop trace idx (r + 1) =
      if r = 0 then ⟨TtsReturn.value none, 1, [], none⟩
      else
        ⟨(ttsLoop trace (idx + 1) r).result,
          (ttsLoop trace (idx + 1) r).attempts + 1,
          2 :: (ttsLoop trace (idx + 1) r).sleeps,
          (ttsLoop trace (idx + 1) r).errorShown⟩ := by
  simp only [ttsLoop]
  rw [h]

theorem ttsLoop_attempts_le (trace : Nat → Attempt) :
    ∀ (n idx : Nat), (ttsLoop trace idx n).attempts ≤ n
  | 0, idx => by rw [ttsLoop_zero]
  | n + 1, idx => by
    cases h : trace idx with
    | response status content body raw =>
      rw [ttsLoop_response n h]
      by_cases hs : status = 200
      · rw [if_pos hs]
        show 1 ≤ n + 1
        omega
      · rw [if_neg hs, rejectResult_attempts]
        omega
    | transportError =>
      rw [ttsLoop_transport n h]
      by_cases hr : n = 0
      · rw [if_pos hr]
        show 1 ≤ n + 1
        omega
      · rw [if_neg hr]
        have h1 := ttsLoop_attempts_le trace n (idx + 1)
        show (ttsLoop trace (idx + 1) n).attempts + 1 ≤ n + 1
        omega

theorem ttsLoop_all_transport (trace : Nat → Attempt) :
    ∀ (n idx : Nat), 0 < n → (∀ j, j < n → trace (idx + j) = .transportError) →
    ttsLoop trace idx n = ⟨TtsReturn.value none, n, List.replicate (n - 1) 2, none⟩
  | 0, _, h, _ => absurd h (by omega)
  | n + 1, idx, _, hall => by
    have h0 : trace idx = .transportError := by simpa using hall 0 (by omega)
    rw [ttsLoop_transport n h0]
    cases n with
    | zero =>
      rw [if_pos rfl]
      rfl
    | succ m =>
      rw [if_neg (by omega)]
      have hrec := ttsLoop_all_transport trace (m + 1) (idx + 1) (by omega)
        (fun j hj => by
          have h2 := hall (j + 1) (by omega)
          rwa [show idx + (j + 1) = idx + 1 + j by omega] at h2)
      rw [hrec]
      show TtsRun.mk (TtsReturn.value none) (m + 1 + 1)
        (2 :: List.replicate (m + 1 - 1) 2) none = _
      simp [List.replicate_succ]

theorem ttsLoop_result (trace : Nat → Attempt) :
    ∀ (n idx : Nat), (ttsLoop trace idx n).result = TtsReturn.value none ∨
      (∃ k content body raw, k < n ∧
        trace (idx + k) = .response 200 content body raw ∧
        (ttsLoop trace idx n).result = TtsReturn.value (some content)) ∨
      (∃ k status content body raw, k < n ∧
        trace (idx + k) = .response status content body raw ∧
        status ≠ 200 ∧ extractMsg body raw = none ∧
        (ttsLoop trace idx n).result = TtsReturn.attrError)
  | 0, _ => Or.inl rfl
  | n + 1, idx => by
    cases h : trace idx with
    | response status content body raw =>
      rw [ttsLoop_response n h]
      by_cases hs : status = 200
      · subst hs
        rw [if_pos rfl]
        exact Or.inr (Or.inl ⟨0, content, body, raw, by omega, by simpa using h, rfl⟩)
      · rw [if_neg hs]
        cases hm : extractMsg body raw with
        | some msg =>
          left
          unfold rejectResult
          rw [hm]
        | none =>
          refine Or.inr (Or.inr ⟨0, status, content, body, raw, by omega,
            by simpa using h, hs, hm, ?_⟩)
          unfold rejectResult
          rw [hm]
    | transportError =>
      rw [ttsLoop_transport n h]
      by_cases hr : n = 0
      · rw [if_pos hr]
        exact Or.inl rfl
      · rw [if_neg hr]
        rcases ttsLoop_result trace n (idx + 1) with h1 |
          ⟨k, c, b, r, hk, htr, hres⟩ | ⟨k, st, c, b, r, hk, htr, hst, hm, hres⟩
        · exact Or.inl h1
        · refine Or.inr (Or.inl ⟨k + 1, c, b, r, by omega, ?_, hres⟩)
          rwa [show idx + (k + 1) = idx + 1 + k by omega]
        · refine Or.inr (Or.inr ⟨k + 1, st, c, b, r, by omega, ?_, hst, hm, hres⟩)
          rwa [show idx + (k + 1) = idx + 1 + k by omega]

/-! ## Conversion-loop lemmas -/

theorem chunkLoop_spec : ∀ (os : List ChunkOutcome) (segs : List (List Nat)) (cnt : Nat),
    chunkLoop os segs cnt = (segs ++ os.filterMap segOf, cnt + os.countP isOk)
  | [], segs, cnt => by simp [chunkLoop]
  | o :: os, segs, cnt => by
    have hrec := chunkLoop_spec os
    cases o with
    | decoded s =>
      show chunkLoop os (segs ++ [s]) (cnt + 1) = _
      rw [hrec]
      simp only [Prod.mk.injEq]
      refine ⟨?_, ?_⟩
      · simp [List.filterMap_cons, segOf]
      · rw [List.countP_cons]
        simp [isOk]
        omega
    | synthFailed =>
      show chunkLoop os segs cnt = _
      rw [hrec]
      simp only [Prod.mk.injEq]
      refine ⟨?_, ?_⟩
      · simp [List.filterMap_cons, segOf]
      · rw [List.countP_cons]
        simp [isOk]
    | decodeFailed =>
      show chunkLoop os segs cnt = _
      rw [hrec]
      simp only [Prod.mk.injEq]
      refine ⟨?_, ?_⟩
      · simp [List.filterMap_cons, segOf]
      · rw [List.countP_cons]
        simp [isOk]

theorem main_convert_eq (outcomes : List ChunkOutcome) :
    main_convert outcomes =
      { total := outcomes.length
        successCount := outcomes.countP isOk
        perChunk := outcomes.map isOk
        finalAudio :=
          if outcomes.countP isOk = outcomes.length ∧ outcomes.filterMap segOf ≠ []
          then some (outcomes.filterMap segOf).flatten else none } := by
  simp [main_convert, chunkLoop_spec]

theorem main_convert_total (outcomes : List ChunkOutcome) :
    (main_convert outcomes).total = outcomes.length := by
  rw [main_convert_eq]

theorem main_convert_successCount (outcomes : List ChunkOutcome) :
    (main_convert outcomes).successCount = outcomes.countP isOk := by
  rw [main_convert_eq]

theorem main_convert_perChunk (outcomes : List ChunkOutcome) :
    (main_convert outcomes).perChunk = outcomes.map isOk := by
  rw [main_convert_eq]

theorem main_convert_finalAudio (outcomes : List ChunkOutcome) :
    (main_convert outcomes).finalAudio =
      if outcomes.countP isOk = outcomes.length ∧ outcomes.filterMap segOf ≠ []
      then some (outcomes.filterMap segOf).flatten else none := by
  rw [main_convert_eq]

theorem sentences_eq (s : List Char) : sentences s = sentencesAux [] s := rfl

/-! ## Claim theorems -/

/-- Claim C1 (corrected), counterexample: segmenting the 20-character text
of `a`s with `max_length = 5` does not produce four hard-cut chunks of
five characters; it produces an empty chunk followed by the whole
20-character token uncut, so a chunk exceeds `max_length` and no hard cut
at exactly `max_length` happens. -/
theorem c1_counterexample :
    split_text (List.replicate 20 'a') 5 = [[], List.replicate 20 'a'] ∧
      split_text (List.replicate 20 'a') 5 ≠
        List.replicate 4 (List.replicate 5 'a') := by
  refine ⟨by decide, by decide⟩

/-- Claim C1 (amended): for every text and every `max_length > 0`, every
chunk produced by `split_text` has length at most `max_length`, except
chunks that consist of a single sentence piece longer than `max_length`,
which are emitted whole — the code never hard-cuts. -/
theorem c1_chunk_length_bound (text : List Char) (L : Nat) (b : List Char)
    (hL : 0 < L) (hb : b ∈ split_text text L) :
    b.length ≤ L ∨ (L < b.length ∧ b ∈ sentences (pyStrip text)) := by
  by_cases h : pyStrip text = []
  · rw [split_text_trim_nil hL h, List.mem_singleton] at hb
    subst hb
    left
    simp
  · have hq : ∀ p ∈ sentences (pyStrip text),
        p ∈ sentences (pyStrip text) ∧ p ≠ [] ∧ pyStrip p = p := by
      intro p hp
      rw [sentences_eq] at hp
      have h2 := sentencesAux_quality (pyStrip text).length (pyStrip text)
        (le_refl _) [] (by simpa using h) (by simpa using headOk_pyStrip text)
        (by simpa using lastOk_pyStrip text) p hp
      exact ⟨by rw [sentences_eq]; exact hp, h2.1, h2.2⟩
    exact buildBlocks_bound L (sentences (pyStrip text))
      (sentences (pyStrip text)) [] hq (Or.inl rfl) b hb

/-- Witness for C1 at a concrete input: the single chunk of
`split_text "ab" 3` satisfies the amended bound. -/
theorem c1_witness :
    (['a', 'b'] : List Char).length ≤ 3 ∨
      (3 < (['a', 'b'] : List Char).length ∧
        ['a', 'b'] ∈ sentences (pyStrip ['a', 'b'])) :=
  c1_chunk_length_bound ['a', 'b'] 3 ['a', 'b'] (by decide) (by decide)

/-- Claim C2: the conversion loop produces a final audio blob iff every
chunk succeeded; on any failure no concatenation happens
(`finalAudio = none`) while the per-chunk report and the
succeeded/total counts are still produced. -/
theorem c2_all_or_nothing (outcomes : List ChunkOutcome) (h : outcomes ≠ []) :
    ((main_convert outcomes).finalAudio = none ↔
      ∃ o ∈ outcomes, isOk o = false) ∧
    (main_convert outcomes).total = outcomes.length ∧
    (main_convert outcomes).successCount = outcomes.countP isOk ∧
    (main_convert outcomes).perChunk = outcomes.map isOk := by
  refine ⟨?_, main_convert_total outcomes, main_convert_successCount outcomes,
    main_convert_perChunk outcomes⟩
  rw [main_convert_finalAudio]
  constructor
  · intro hnone
    by_contra hno
    push_neg at hno
    have hall : ∀ o ∈ outcomes, isOk o = true := by
      intro o ho
      cases hv : isOk o
      · exact absurd hv (hno o ho)
      · rfl
    have hcnt : outcomes.countP isOk = outcomes.length :=
      List.countP_eq_length.mpr hall
    obtain ⟨o, os, rfl⟩ := List.exists_cons_of_ne_nil h
    have hok : isOk o = true := hall o (by simp)
    cases o with
    | decoded s =>
      rw [if_pos ⟨hcnt, by simp [List.filterMap_cons, segOf]⟩] at hnone
      cases hnone
    | synthFailed => simp [isOk] at hok
    | decodeFailed => simp [isOk] at hok
  · rintro ⟨o, ho, hfail⟩
    have hcond : ¬(outcomes.countP isOk = outcomes.length ∧
        outcomes.filterMap segOf ≠ []) := by
      rintro ⟨hcnt, -⟩
      have h1 := List.countP_eq_length.mp hcnt o ho
      rw [hfail] at h1
      cases h1
    rw [if_neg hcond]

/-- Witness for C2 at a concrete input: one failed chunk gives no final
audio while the run still reports the total. -/
theorem c2_witness :
    (main_convert [ChunkOutcome.synthFailed]).finalAudio = none ∧
      (main_convert [ChunkOutcome.synthFailed]).total = 1 :=
  ⟨(c2_all_or_nothing [ChunkOutcome.synthFailed] (by decide)).1.mpr
      ⟨ChunkOutcome.synthFailed, by simp, rfl⟩,
    (c2_all_or_nothing [ChunkOutcome.synthFailed] (by decide)).2.1⟩

/-- Claim C3: `text_to_speech` performs at most `retries + 1` network
attempts; when every attempt raises a transport error it returns `None`
after exactly `retries + 1` attempts with a fixed delay of 2 slept
between consecutive attempts. -/
theorem c3_retry_bound (trace : Nat → Attempt) (retries : Nat) :
    (text_to_speech trace retries).attempts ≤ retries + 1 ∧
    ((∀ i, i ≤ retries → trace i = Attempt.transportError) →
      text_to_speech trace retries =
        ⟨TtsReturn.value none, retries + 1, List.replicate retries 2, none⟩) := by
  constructor
  · exact ttsLoop_attempts_le trace (retries + 1) 0
  · intro h
    have h1 := ttsLoop_all_transport trace (retries + 1) 0 (by omega)
      (fun j hj => by simpa using h j (by omega))
    rw [show retries + 1 - 1 = retries from by omega] at h1
    exact h1

/-- Witness for C3 at a concrete trace: all transport errors with the
default `retries = 2` gives 3 attempts and two backoff sleeps. -/
theorem c3_witness :
    text_to_speech (fun _ => Attempt.transportError) 2 =
      ⟨TtsReturn.value none, 3, [2, 2], none⟩ :=
  (c3_retry_bound (fun _ => Attempt.transportError) 2).2 (fun _ _ => rfl)

/-- Claim C4 (corrected), counterexample: a non-200 response whose body
parses as JSON but is not a structured error object (such as
`{"error": "Forbidden"}` or `[1, 2]`) does not produce a failure
carrying the raw body text: the `.get` chain raises `AttributeError`,
the exception escapes `text_to_speech`, and no message is shown and
nothing is returned. -/
theorem c4_counterexample :
    text_to_speech (fun _ => Attempt.response 403 [] BodyShape.jsonNotObject
        ['F', 'o', 'r', 'b', 'i', 'd', 'd', 'e', 'n']) 2 =
      ⟨TtsReturn.attrError, 1, [], none⟩ := by
  decide

/-- Claim C4 (amended): a non-200 response on the first attempt is never
retried — exactly one attempt in every case.  When the message
extraction completes (structured `error.message`, or the raw body text
when the body is not JSON or the `.get` defaults apply), the client
shows that message and returns `None`; when the body parses as JSON but
is not a structured error object, the extraction raises
`AttributeError`, which propagates — still without a second attempt. -/
theorem c4_no_retry_on_rejection (trace : Nat → Attempt) (retries status : Nat)
    (content : List Nat) (body : BodyShape) (raw : List Char)
    (h : trace 0 = Attempt.response status content body raw)
    (hs : status ≠ 200) :
    (text_to_speech trace retries).attempts = 1 ∧
    text_to_speech trace retries =
      match extractMsg body raw with
      | some msg => ⟨TtsReturn.value none, 1, [], some msg⟩
      | none => ⟨TtsReturn.attrError, 1, [], none⟩ := by
  have h1 : text_to_speech trace retries = rejectResult body raw := by
    unfold text_to_speech
    rw [ttsLoop_response retries h, if_neg hs]
  refine ⟨?_, ?_⟩
  · rw [h1, rejectResult_attempts]
  · rw [h1]
    unfold rejectResult
    cases extractMsg body raw <;> rfl

/-- Witness for C4 at a concrete trace: an HTTP 400 whose body is not
JSON yields one attempt, `None`, and the raw body text as message. -/
theorem c4_witness :
    text_to_speech (fun _ => Attempt.response 400 [7] BodyShape.notJson
        ['e', 'r', 'r']) 5 =
      ⟨TtsReturn.value none, 1, [], some ['e', 'r', 'r']⟩ :=
  (c4_no_retry_on_rejection _ 5 400 [7] BodyShape.notJson ['e', 'r', 'r']
    rfl (by decide)).2

/-- Claim C5: joining the chunks produced by `split_text` with single
spaces (and trimming) reproduces the word sequence of the original text:
only whitespace run lengths can differ. -/
theorem c5_word_sequence_preserved (text : List Char) (L : Nat) :
    words (pyStrip (joinSp (split_text text L))) = words text := by
  rw [words_pyStrip]
  unfold split_text
  rw [buildBlocks_words L (sentences (pyStrip text)) [] (Or.inl rfl)]
  rw [words_nil, List.nil_append, sentences_eq]
  rw [sentencesAux_words (pyStrip text).length (pyStrip text) (le_refl _) []]
  rw [List.reverse_nil, List.nil_append]
  exact words_pyStrip text

/-- Claim C6 (corrected), counterexample: `split_text` can emit the empty
string as a chunk — for the 6-character token `aaaaaa` with
`max_length = 2` the first flushed chunk is empty. -/
theorem c6_counterexample : [] ∈ split_text (List.replicate 6 'a') 2 := by
  decide

/-- Claim C6 (amended): every chunk after the first is non-empty; only
the first chunk can be empty (it is when the text trims to nothing, or
when the first sentence piece already fails the length check). -/
theorem c6_tail_chunks_nonempty (text : List Char) (L : Nat) (b : List Char)
    (hL : 0 < L) (hb : b ∈ (split_text text L).tail) : b ≠ [] := by
  by_cases h : pyStrip text = []
  · rw [split_text_trim_nil hL h] at hb
    simp at hb
  · have hq : ∀ p ∈ sentences (pyStrip text), p ≠ [] ∧ headOk p := by
      intro p hp
      rw [sentences_eq] at hp
      have h2 := sentencesAux_quality (pyStrip text).length (pyStrip text)
        (le_refl _) [] (by simpa using h) (by simpa using headOk_pyStrip text)
        (by simpa using lastOk_pyStrip text) p hp
      exact ⟨h2.1, by rw [← h2.2]; exact headOk_pyStrip p⟩
    exact buildBlocks_tail_ne_nil L (sentences (pyStrip text)) [] hq
      (Or.inl rfl) b hb

/-- Witness for C6 at a concrete input: the second chunk of
`split_text "Hi. Bye." 8` is non-empty. -/
theorem c6_witness : (['B', 'y', 'e', '.'] : List Char) ≠ [] :=
  c6_tail_chunks_nonempty ['H', 'i', '.', ' ', 'B', 'y', 'e', '.'] 8
    ['B', 'y', 'e', '.'] (by decide) (by decide)

/-- Claim C7 (corrected), counterexample: the text `Hi. Bye.` has length
8 = `max_length`, is non-empty and already trimmed, yet `split_text`
yields two chunks, not one (the accumulation check counts one extra
character for the trailing space). -/
theorem c7_counterexample :
    split_text ['H', 'i', '.', ' ', 'B', 'y', 'e', '.'] 8 =
      [['H', 'i', '.'], ['B', 'y', 'e', '.']] ∧
    (['H', 'i', '.', ' ', 'B', 'y', 'e', '.'] : List Char).length ≤ 8 := by
  refine ⟨by decide, by decide⟩

/-- Claim C7 (amended): for every text whose trim is non-empty and
strictly shorter than `max_length`, `split_text` yields exactly one
chunk, namely the sentence pieces of the trimmed input joined by single
spaces (the trimmed input with whitespace runs after sentence
terminators collapsed to one space). -/
theorem c7_single_chunk (text : List Char) (L : Nat)
    (h1 : pyStrip text ≠ []) (h2 : (pyStrip text).length < L) :
    split_text text L = [joinSp (sentences (pyStrip text))] := by
  have hq : ∀ p ∈ sentences (pyStrip text), p ≠ [] ∧ pyStrip p = p := by
    intro p hp
    rw [sentences_eq] at hp
    exact sentencesAux_quality (pyStrip text).length (pyStrip text)
      (le_refl _) [] (by simpa using h1) (by simpa using headOk_pyStrip text)
      (by simpa using lastOk_pyStrip text) p hp
  have hsne : sentences (pyStrip text) ≠ [] := by
    rw [sentences_eq]
    exact sentencesAux_ne_nil (pyStrip text) []
  have hbound : ([] : List Char).length + lenSum (sentences (pyStrip text)) +
      (sentences (pyStrip text)).length ≤ L := by
    have h3 := sentencesAux_len (pyStrip text).length (pyStrip text) (le_refl _) []
    rw [← sentences_eq] at h3
    simp only [List.length_nil] at h3 ⊢
    omega
  unfold split_text
  rw [buildBlocks_allfit L (sentences (pyStrip text)) [] (Or.inr hsne) hbound]
  rw [List.nil_append, withSp_eq_joinSp _ hsne]
  rw [strip_append_space
    (joinSp_headOk _ (fun p hp => ⟨(hq p hp).1,
      by rw [← (hq p hp).2]; exact headOk_pyStrip p⟩))
    (joinSp_lastOk _ (fun p hp => ⟨(hq p hp).1,
      by rw [← (hq p hp).2]; exact lastOk_pyStrip p⟩))]

/-- Witness for C7 at a concrete input: `Hi.  Bye.` (9 characters, double
space) with `max_length = 10` yields one chunk, the join of its sentence
pieces. -/
theorem c7_witness :
    split_text ['H', 'i', '.', ' ', ' ', 'B', 'y', 'e', '.'] 10 =
      [joinSp (sentences (pyStrip ['H', 'i', '.', ' ', ' ', 'B', 'y', 'e', '.']))] :=
  c7_single_chunk ['H', 'i', '.', ' ', ' ', 'B', 'y', 'e', '.'] 10
    (by decide) (by decide)

/-- Claim C8: when every chunk synthesizes and decodes successfully, the
final audio is the concatenation of the per-chunk segments in chunk
order, and its length (duration) is the sum of the segment lengths. -/
theorem c8_ordered_concatenation (outcomes : List ChunkOutcome)
    (hne : outcomes ≠ []) (hall : ∀ o ∈ outcomes, isOk o = true) :
    (main_convert outcomes).finalAudio =
      some ((outcomes.filterMap segOf).flatten) ∧
    ((outcomes.filterMap segOf).flatten).length =
      ((outcomes.filterMap segOf).map List.length).sum := by
  constructor
  · rw [main_convert_finalAudio]
    obtain ⟨o, os, rfl⟩ := List.exists_cons_of_ne_nil hne
    have hok : isOk o = true := hall o (by simp)
    cases o with
    | decoded s =>
      rw [if_pos ⟨List.countP_eq_length.mpr hall,
        by simp [List.filterMap_cons, segOf]⟩]
    | synthFailed => simp [isOk] at hok
    | decodeFailed => simp [isOk] at hok
  · exact List.length_flatten _

/-- Witness for C8 at a concrete input: two decoded segments concatenate
in order into the final audio. -/
theorem c8_witness :
    (main_convert [ChunkOutcome.decoded [1, 2], ChunkOutcome.decoded [3]]).finalAudio =
      some [1, 2, 3] :=
  (c8_ordered_concatenation [ChunkOutcome.decoded [1, 2], ChunkOutcome.decoded [3]]
    (by decide) (by decide)).1

/-- Claim C9: for every input whose trim is empty (empty or
whitespace-only text) and any positive `max_length`, `split_text`
returns the one-element list containing the empty string, not the empty
list. -/
theorem c9_blank_input_single_empty_chunk (text : List Char) (L : Nat)
    (hL : 0 < L) (h : pyStrip text = []) : split_text text L = [[]] :=
  split_text_trim_nil hL h

/-- Witness for C9 at a concrete input: whitespace-only text with the
default `max_length = 4000`. -/
theorem c9_witness : split_text [' ', '\n'] 4000 = [[]] :=
  c9_blank_input_single_empty_chunk [' ', '\n'] 4000 (by decide) (by decide)

/-- Claim C10 (corrected), counterexample: the client does not always
return response bytes or `None` to its caller — a non-200 response
whose JSON body is not a structured error object makes the message
extraction raise `AttributeError`, which propagates out of
`text_to_speech`. -/
theorem c10_counterexample :
    (text_to_speech (fun _ => Attempt.response 500 [] BodyShape.jsonNotObject []) 0).result =
      TtsReturn.attrError := by
  decide

/-- Claim C10 (amended): transport exceptions
(`requests.RequestException`) are always caught inside the loop and
never propagate.  For every trace, `text_to_speech` returns `None`,
returns the raw bytes of a 200 response reached within the retry
budget, or propagates the `AttributeError` raised because some reached
non-200 response's JSON body is not a structured error object; nothing
else escapes. -/
theorem c10_no_transport_escape (trace : Nat → Attempt) (retries : Nat) :
    (text_to_speech trace retries).result = TtsReturn.value none ∨
      (∃ i content body raw, i ≤ retries ∧
        trace i = Attempt.response 200 content body raw ∧
        (text_to_speech trace retries).result = TtsReturn.value (some content)) ∨
      (∃ i status content body raw, i ≤ retries ∧
        trace i = Attempt.response status content body raw ∧
        status ≠ 200 ∧ extractMsg body raw = none ∧
        (text_to_speech trace retries).result = TtsReturn.attrError) := by
  rcases ttsLoop_result trace (retries + 1) 0 with h |
    ⟨k, c, b, r, hk, htr, hres⟩ | ⟨k, st, c, b, r, hk, htr, hst, hm, hres⟩
  · exact Or.inl h
  · refine Or.inr (Or.inl ⟨k, c, b, r, by omega, ?_, hres⟩)
    rwa [show (0 : Nat) + k = k from by omega] at htr
  · refine Or.inr (Or.inr ⟨k, st, c, b, r, by omega, ?_, hst, hm, hres⟩)
    rwa [show (0 : Nat) + k = k from by omega] at htr

end TTS
